import Mathlib

/-!
# A verification development for `trie.go`

The Go package implements a prefix tree over unicode code points together with
a cursor (`AutoCompleter`) that walks it one symbol at a time.

Modelling conventions.

* A Go `rune` that occurs in a string is a unicode scalar value: `Rune := Char`.
* A Go `string` is taken as the sequence of its code points (`List Rune`), so
  that the conversions `[]rune(s)` and `string(rs)` are the identity and `+` on
  strings is `++`.  Strings that are not valid UTF-8 are outside the model.
* A Go `map[rune]*Trie` is an association list.  `mapGet` is the lookup
  `m[k]` with its `ok` flag, `mapSet` is the assignment `m[k] = v`.  The order
  of the list stands for the order in which `range` visits the map, which Go
  leaves unspecified; statements about enumerations are therefore made up to
  permutation.
* Nodes are reached through pointers in Go and updated in place.  The model is
  purely functional: an update of a node returns the updated node, and the
  parent stores it back under the same key.
* A run-time panic (index or slice bound out of range) is the result `none`.
-/

/-- A unicode code point, Go's `rune` as it occurs in a string. -/
abbrev Rune := Char

/-- `Trie` is one node of the prefix tree: `children map[rune]*Trie` and
`isWord bool`. -/
inductive Trie where
  | mk (children : List (Rune × Trie)) (isWord : Bool) : Trie

/-- The field `children`. -/
def Trie.children : Trie → List (Rune × Trie)
  | .mk cs _ => cs

/-- The field `isWord`. -/
def Trie.isWord : Trie → Bool
  | .mk _ w => w

/-- The map read `v, ok := m[k]`: `some v` when `ok`, `none` otherwise. -/
def mapGet (m : List (Rune × Trie)) (k : Rune) : Option Trie :=
  match m with
  | [] => none
  | (k', v) :: rest => if k' = k then some v else mapGet rest k

/-- The map write `m[k] = v`: an existing entry is overwritten, a new key gets
a new entry. -/
def mapSet (m : List (Rune × Trie)) (k : Rune) (v : Trie) : List (Rune × Trie) :=
  match m with
  | [] => [(k, v)]
  | (k', v') :: rest => if k' = k then (k', v) :: rest else (k', v') :: mapSet rest k v

/-- The fresh node `&Trie{children: make(map[rune]*Trie)}`. -/
def emptyNode : Trie := .mk [] false

/-- `addToTrie(curr, word)`.  The child for `word[0]` is looked up and created
when missing; it is marked as a word when `len(word) == 1` and receives the rest
of the word otherwise.  The updated child is stored back in `curr.children`. -/
def addToTrie (curr : Trie) : List Rune → Trie
  | [] => curr
  | c :: rest =>
    let node := (mapGet curr.children c).getD emptyNode
    let node' := match rest with
      | [] => Trie.mk node.children true
      | _ :: _ => addToTrie node rest
    Trie.mk (mapSet curr.children c node') curr.isWord

/-- `NewTrie(words)`: a fresh root into which every word is inserted in order. -/
def NewTrie (words : List (List Rune)) : Trie :=
  words.foldl addToTrie emptyNode

mutual
/-- `t.allWords(prefix)`: the words below `t`, each with `pfx` in front, and
`pfx` itself last when `t.isWord`. -/
def Trie.allWords : Trie → List Rune → List (List Rune)
  | .mk cs w, pfx =>
    let result := allWordsRange cs pfx
    if w then result ++ [pfx] else result
/-- The loop `for ch, child := range children { result = append(result,
child.allWords(append(prefix, ch))...) }`. -/
def allWordsRange : List (Rune × Trie) → List Rune → List (List Rune)
  | [], _ => []
  | (ch, child) :: rest, pfx => child.allWords (pfx ++ [ch]) ++ allWordsRange rest pfx
end

/-- `t.AllWords()`: the same loop as in `allWords`, started from the one-symbol
slices `[]rune{ch}`; the flag of `t` itself is not consulted. -/
def Trie.AllWords (t : Trie) : List (List Rune) :=
  allWordsRange t.children []

/-- `t.allWithPrefix(prefix)`: walk down along `pfx`; at its end return the
words below the node, with the empty string appended when the node is a word;
`nil` when a symbol has no child. -/
def Trie.allWithPrefix (t : Trie) : List Rune → List (List Rune)
  | [] => if t.isWord then t.AllWords ++ [[]] else t.AllWords
  | c :: rest =>
    match mapGet t.children c with
    | some child => child.allWithPrefix rest
    | none => []

/-- `t.AllWithPrefix(prefix)`: every result of `allWithPrefix` with `pfx` put
in front. -/
def Trie.AllWithPrefix (t : Trie) (pfx : List Rune) : List (List Rune) :=
  (t.allWithPrefix pfx).map (fun word => pfx ++ word)

/-- The error values of the package. -/
inductive GoError where
  | ErrNoMatches
deriving DecidableEq, Repr

/-- `AutoCompleter`: the tracked prefix and the stack of nodes, the top of the
stack being the last element. -/
structure AutoCompleter where
  pfx : List Rune
  stack : List Trie

/-- `NewAutoCompleter(trie)`. -/
def NewAutoCompleter (trie : Trie) : AutoCompleter :=
  { pfx := [], stack := [trie] }

/-- `ac.Add(input)`.  The result is the cursor after the call together with the
returned error (`none` for `nil`).  Reading the top of an empty stack panics. -/
def AutoCompleter.Add (ac : AutoCompleter) (input : Rune) :
    Option (AutoCompleter × Option GoError) :=
  match ac.stack.getLast? with
  | none => none
  | some curr =>
    match mapGet curr.children input with
    | none => some (ac, some GoError.ErrNoMatches)
    | some next => some ({ pfx := ac.pfx ++ [input], stack := ac.stack ++ [next] }, none)

/-- `ac.AddString(input)`: `Add` on every symbol in order, returning at the
first error. -/
def AutoCompleter.AddString (ac : AutoCompleter) :
    List Rune → Option (AutoCompleter × Option GoError)
  | [] => some (ac, none)
  | r :: rest =>
    match ac.Add r with
    | none => none
    | some (ac', some err) => some (ac', some err)
    | some (ac', none) => ac'.AddString rest

/-- `ac.AllMatches()`.  Reading the top of an empty stack panics. -/
def AutoCompleter.AllMatches (ac : AutoCompleter) : Option (List (List Rune)) :=
  match ac.stack.getLast? with
  | none => none
  | some top =>
    let words := top.AllWords.map (fun word => ac.pfx ++ word)
    some (if top.isWord then words ++ [ac.pfx] else words)

/-- `ac.Delete()`.  Slicing an empty stack to `len-1` panics. -/
def AutoCompleter.Delete (ac : AutoCompleter) : Option AutoCompleter :=
  if ac.pfx.length = 0 then some ac
  else if ac.stack.length = 0 then none
  else some { pfx := ac.pfx.dropLast, stack := ac.stack.dropLast }

/-! ## Specification vocabulary -/

/-- The node reached from `t` by following `path` symbol by symbol, `none` when
some symbol has no child. -/
def Trie.walk (t : Trie) : List Rune → Option Trie
  | [] => some t
  | c :: rest =>
    match mapGet t.children c with
    | some child => child.walk rest
    | none => none

/-- The flag of the node at the end of `path`; `false` when the path leaves the
trie. -/
def Trie.isWordAt (t : Trie) (path : List Rune) : Bool :=
  match t.walk path with
  | some node => node.isWord
  | none => false

/-- A trie all of whose nodes have pairwise distinct keys, as every Go map
has. -/
inductive Trie.WF : Trie → Prop
  | mk (cs : List (Rune × Trie)) (w : Bool) :
      (cs.map Prod.fst).Nodup → (∀ x ∈ cs, Trie.WF x.2) → Trie.WF (Trie.mk cs w)

/-- The words of `W` that begin with `p`, in the order of `W`. -/
def wordsWithPrefix (W : List (List Rune)) (p : List Rune) : List (List Rune) :=
  W.filter (fun w => p.isPrefixOf w)

/-- The longest leading part of `s` that can be followed from `node`, symbol by
symbol. -/
def navigable (node : Trie) : List Rune → List Rune
  | [] => []
  | c :: rest =>
    match mapGet node.children c with
    | some child => c :: navigable child rest
    | none => []

/-- `k` calls of `Delete` in a row. -/
def deleteTimes : Nat → AutoCompleter → Option AutoCompleter
  | 0, ac => some ac
  | k + 1, ac => (ac.Delete).bind (deleteTimes k)

/-- The cursor states that calls of `Add`, `AddString` and `Delete`, failing
ones included, can produce from `NewAutoCompleter(t)`. -/
inductive Reachable (t : Trie) : AutoCompleter → Prop
  | init : Reachable t (NewAutoCompleter t)
  | add {ac ac' : AutoCompleter} {err : Option GoError} (r : Rune) :
      Reachable t ac → ac.Add r = some (ac', err) → Reachable t ac'
  | addString {ac ac' : AutoCompleter} {err : Option GoError} (s : List Rune) :
      Reachable t ac → ac.AddString s = some (ac', err) → Reachable t ac'
  | delete {ac ac' : AutoCompleter} :
      Reachable t ac → ac.Delete = some ac' → Reachable t ac'

/-- The stack mirrors the tracked prefix: it starts at the root and every later
node is the child of the one before it under the corresponding symbol. -/
inductive CursorInv (t : Trie) : AutoCompleter → Prop
  | root : CursorInv t { pfx := [], stack := [t] }
  | push {p : List Rune} {s : List Trie} {top next : Trie} {r : Rune} :
      CursorInv t { pfx := p, stack := s ++ [top] } →
      mapGet top.children r = some next →
      CursorInv t { pfx := p ++ [r], stack := s ++ [top] ++ [next] }

/-- `AddsSucceed ac p ac'`: calling `Add` on the symbols of `p` in turn, starting
from `ac`, succeeds every time and ends in `ac'`. -/
inductive AddsSucceed : AutoCompleter → List Rune → AutoCompleter → Prop
  | done (ac : AutoCompleter) : AddsSucceed ac [] ac
  | step {ac ac1 ac' : AutoCompleter} {r : Rune} {rest : List Rune} :
      ac.Add r = some (ac1, none) → AddsSucceed ac1 rest ac' → AddsSucceed ac (r :: rest) ac'

/-- The word list of `TestAutoCompleter`. -/
def fixtureWords : List (List Rune) :=
  ["abc", "abcde", "abb", "abbc", "abba", "abccd", "abcdeef", "acabc", "bc", "bced"].map
    String.toList

/-- A word list of `TestTrie_AllWords`, with a repeated word added. -/
def smallWords : List (List Rune) :=
  ["ab", "abc", "abcd", "ab"].map String.toList

/-- The cursor over `NewTrie smallWords` after typing `ab`. -/
def smallCursor : AutoCompleter :=
  match (NewAutoCompleter (NewTrie smallWords)).AddString ['a', 'b'] with
  | some (ac, _) => ac
  | none => NewAutoCompleter (NewTrie smallWords)

/-- `Trie.Below t n`: `n` is a node of the tree under `t`, other than `t`
itself. -/
inductive Trie.Below : Trie → Trie → Prop
  | child {t : Trie} {x : Rune × Trie} : x ∈ t.children → Trie.Below t x.2
  | deeper {t n : Trie} {x : Rune × Trie} :
      x ∈ t.children → Trie.Below x.2 n → Trie.Below t n

/-- One call on a cursor. -/
inductive CursorOp where
  | add (r : Rune)
  | addString (s : List Rune)
  | delete

/-- The effect of one call: the cursor afterwards and the returned error
(`Delete` returns nothing, recorded as `none`). -/
def stepOp (ac : AutoCompleter) : CursorOp → Option (AutoCompleter × Option GoError)
  | CursorOp.add r => ac.Add r
  | CursorOp.addString s => ac.AddString s
  | CursorOp.delete =>
    match ac.Delete with
    | some ac' => some (ac', none)
    | none => none

/-- A sequence of calls in order: the final cursor and the errors returned on
the way. -/
def runOps : List CursorOp → AutoCompleter → Option (AutoCompleter × List (Option GoError))
  | [], ac => some (ac, [])
  | op :: rest, ac =>
    match stepOp ac op with
    | none => none
    | some (ac1, e) =>
      match runOps rest ac1 with
      | none => none
      | some (ac', es) => some (ac', e :: es)

/-! ## The map operations -/

theorem mapGet_mapSet (m : List (Rune × Trie)) (k k' : Rune) (v : Trie) :
    mapGet (mapSet m k v) k' = if k = k' then some v else mapGet m k' := by
  induction m with
  | nil => simp [mapSet, mapGet]
  | cons x rest ih =>
    obtain ⟨a, b⟩ := x
    by_cases h : a = k
    · subst h
      by_cases h' : a = k' <;> simp [mapSet, mapGet, h']
    · by_cases h' : a = k'
      · subst h'
        have : ¬ k = a := fun e => h e.symm
        simp [mapSet, mapGet, h, this]
      · simp [mapSet, mapGet, h, h', ih]

theorem mapGet_mem {m : List (Rune × Trie)} {k : Rune} {v : Trie}
    (h : mapGet m k = some v) : (k, v) ∈ m := by
  induction m with
  | nil => simp [mapGet] at h
  | cons x rest ih =>
    obtain ⟨a, b⟩ := x
    by_cases e : a = k
    · subst e
      simp [mapGet] at h
      simp [h]
    · simp [mapGet, e] at h
      exact List.mem_cons_of_mem _ (ih h)

theorem mapGet_of_mem {m : List (Rune × Trie)} {k : Rune} {v : Trie}
    (nd : (m.map Prod.fst).Nodup) (h : (k, v) ∈ m) : mapGet m k = some v := by
  induction m with
  | nil => simp at h
  | cons x rest ih =>
    obtain ⟨a, b⟩ := x
    simp only [List.map_cons, List.nodup_cons] at nd
    rcases List.mem_cons.1 h with e | e
    · cases e
      simp [mapGet]
    · have hne : a ≠ k := by
        intro e'
        subst e'
        exact nd.1 (List.mem_map.2 ⟨(a, v), e, rfl⟩)
      simp [mapGet, hne, ih nd.2 e]

theorem mapGet_none_iff {m : List (Rune × Trie)} {k : Rune} :
    mapGet m k = none ↔ k ∉ m.map Prod.fst := by
  induction m with
  | nil => simp [mapGet]
  | cons x rest ih =>
    obtain ⟨a, b⟩ := x
    by_cases e : a = k
    · subst e
      simp [mapGet]
    · have e' : ¬ k = a := fun h => e h.symm
      simp only [mapGet, e, if_false, ih, List.map_cons, List.mem_cons, e', false_or]

theorem mem_mapSet {m : List (Rune × Trie)} {k : Rune} {v : Trie} {x : Rune × Trie}
    (h : x ∈ mapSet m k v) : x ∈ m ∨ x = (k, v) := by
  induction m with
  | nil =>
    simp [mapSet] at h
    exact Or.inr h
  | cons y rest ih =>
    obtain ⟨a, b⟩ := y
    by_cases e : a = k
    · subst e
      simp only [mapSet, if_true, List.mem_cons] at h
      rcases h with h | h
      · exact Or.inr h
      · exact Or.inl (List.mem_cons_of_mem _ h)
    · simp only [mapSet, e, if_false, List.mem_cons] at h
      rcases h with h | h
      · exact Or.inl (h ▸ List.mem_cons_self _ _)
      · rcases ih h with h' | h'
        · exact Or.inl (List.mem_cons_of_mem _ h')
        · exact Or.inr h'

theorem keys_mapSet (m : List (Rune × Trie)) (k : Rune) (v : Trie) :
    (mapSet m k v).map Prod.fst =
      if k ∈ m.map Prod.fst then m.map Prod.fst else m.map Prod.fst ++ [k] := by
  induction m with
  | nil => simp [mapSet]
  | cons y rest ih =>
    obtain ⟨a, b⟩ := y
    by_cases e : a = k
    · subst e
      simp [mapSet]
    · have e' : ¬ k = a := fun h => e h.symm
      simp only [mapSet, e, if_false, List.map_cons, ih, List.mem_cons, e', false_or]
      split <;> simp

theorem nodup_keys_mapSet {m : List (Rune × Trie)} (k : Rune) (v : Trie)
    (nd : (m.map Prod.fst).Nodup) : ((mapSet m k v).map Prod.fst).Nodup := by
  rw [keys_mapSet]
  split
  · exact nd
  · rename_i h
    exact List.Nodup.append nd (List.nodup_singleton k) (by simpa using h)

/-! ## Enumeration -/

theorem Trie.induct {P : Trie → Prop}
    (h : ∀ cs w, (∀ x ∈ cs, P x.2) → P (Trie.mk cs w)) (t : Trie) : P t :=
  Trie.rec (motive_1 := P) (motive_2 := fun l => ∀ x ∈ l, P x.2) (motive_3 := fun x => P x.2)
    (fun cs w ih => h cs w ih)
    (fun x hx => by simp at hx)
    (fun head tail h1 h2 x hx => by
      rcases List.mem_cons.1 hx with e | e
      · exact e ▸ h1
      · exact h2 x e)
    (fun _ _ ih => ih) t

theorem allWords_mk (cs : List (Rune × Trie)) (w : Bool) (p : List Rune) :
    (Trie.mk cs w).allWords p =
      if w then allWordsRange cs p ++ [p] else allWordsRange cs p := by
  simp [Trie.allWords]

theorem allWordsRange_eq (cs : List (Rune × Trie)) (p : List Rune) :
    allWordsRange cs p = cs.flatMap (fun x => x.2.allWords (p ++ [x.1])) := by
  induction cs with
  | nil => simp [allWordsRange]
  | cons x rest ih =>
    obtain ⟨a, b⟩ := x
    simp [allWordsRange, ih]

/-- Visiting the children of a node in another order permutes the result of the
loop. -/
theorem allWordsRange_perm {cs cs' : List (Rune × Trie)} (h : cs.Perm cs') (p : List Rune) :
    (allWordsRange cs p).Perm (allWordsRange cs' p) := by
  rw [allWordsRange_eq, allWordsRange_eq]
  exact h.flatMap_right _

theorem allWords_eq_map (t : Trie) :
    ∀ p : List Rune, t.allWords p = (t.allWords []).map (fun s => p ++ s) := by
  induction t using Trie.induct with
  | h cs w ih =>
    intro p
    have hr : ∀ q : List Rune,
        allWordsRange cs q = (allWordsRange cs []).map (fun s => q ++ s) := by
      intro q
      rw [allWordsRange_eq, allWordsRange_eq, List.map_flatMap]
      apply List.flatMap_congr
      intro x hx
      rw [ih x hx (q ++ [x.1]), ih x hx ([] ++ [x.1]), List.map_map]
      apply List.map_congr_left
      intro s _
      simp
    rw [allWords_mk, allWords_mk, hr p]
    cases w <;> simp

theorem allWords_nil (t : Trie) :
    t.allWords [] = if t.isWord then t.AllWords ++ [[]] else t.AllWords := by
  cases t with
  | mk cs w => simp [allWords_mk, Trie.AllWords, Trie.isWord, Trie.children]

theorem allWithPrefix_eq (t : Trie) (p : List Rune) :
    t.allWithPrefix p = match t.walk p with
      | some node => node.allWords []
      | none => [] := by
  induction p generalizing t with
  | nil => simp [Trie.allWithPrefix, Trie.walk, allWords_nil]
  | cons c rest ih =>
    simp only [Trie.allWithPrefix, Trie.walk]
    cases h : mapGet t.children c with
    | none => simp
    | some child => simpa using ih child

theorem AllWithPrefix_eq (t : Trie) (p : List Rune) :
    t.AllWithPrefix p = match t.walk p with
      | some node => node.allWords p
      | none => [] := by
  unfold Trie.AllWithPrefix
  rw [allWithPrefix_eq]
  cases h : t.walk p with
  | none => simp
  | some node => simpa using (allWords_eq_map node p).symm

theorem mem_allWordsRange {cs : List (Rune × Trie)} {p s : List Rune} :
    s ∈ allWordsRange cs p ↔
      ∃ x ∈ cs, ∃ s', s = p ++ x.1 :: s' ∧ s' ∈ x.2.allWords [] := by
  rw [allWordsRange_eq, List.mem_flatMap]
  constructor
  · rintro ⟨x, hx, hs⟩
    rw [allWords_eq_map] at hs
    obtain ⟨s', hs', rfl⟩ := List.mem_map.1 hs
    exact ⟨x, hx, s', by simp, hs'⟩
  · rintro ⟨x, hx, s', rfl, hs'⟩
    refine ⟨x, hx, ?_⟩
    rw [allWords_eq_map]
    exact List.mem_map.2 ⟨s', hs', by simp⟩

theorem isWordAt_nil (t : Trie) : t.isWordAt [] = t.isWord := by
  simp [Trie.isWordAt, Trie.walk]

theorem isWordAt_cons (t : Trie) (c : Rune) (s : List Rune) :
    t.isWordAt (c :: s) = match mapGet t.children c with
      | some child => child.isWordAt s
      | none => false := by
  simp only [Trie.isWordAt, Trie.walk]
  cases mapGet t.children c <;> rfl

theorem mem_allWords_nil {t : Trie} (hwf : t.WF) :
    ∀ s : List Rune, s ∈ t.allWords [] ↔ t.isWordAt s = true := by
  induction hwf with
  | mk cs w nd _ ih =>
    intro s
    have hsplit : s ∈ (Trie.mk cs w).allWords [] ↔
        s ∈ allWordsRange cs [] ∨ (w = true ∧ s = []) := by
      rw [allWords_mk]
      cases w <;> simp
    rw [hsplit, mem_allWordsRange]
    cases s with
    | nil => simp [isWordAt_nil, Trie.isWord]
    | cons c s' =>
      rw [isWordAt_cons]
      simp only [Trie.children, List.nil_append, List.cons.injEq, reduceCtorEq, and_false,
        or_false]
      constructor
      · rintro ⟨x, hx, s'', ⟨rfl, rfl⟩, hs⟩
        have hget : mapGet cs x.1 = some x.2 := mapGet_of_mem nd hx
        rw [hget]
        exact (ih x hx _).1 hs
      · intro h
        cases hget : mapGet cs c with
        | none => simp [hget] at h
        | some child =>
          rw [hget] at h
          have hmem := mapGet_mem hget
          exact ⟨(c, child), hmem, s', ⟨rfl, rfl⟩, (ih _ hmem _).2 h⟩

theorem nodup_allWords_nil {t : Trie} (hwf : t.WF) : (t.allWords []).Nodup := by
  induction hwf with
  | mk cs w nd _ ih =>
    have hrange : (allWordsRange cs []).Nodup := by
      rw [allWordsRange_eq, List.nodup_flatMap]
      constructor
      · intro x hx
        rw [allWords_eq_map]
        exact List.Nodup.map (fun a b h => List.append_cancel_left h) (ih x hx)
      · have hp : List.Pairwise (fun a b : Rune × Trie => a.1 ≠ b.1) cs :=
          List.pairwise_map.1 nd
        refine hp.imp ?_
        intro a b hab s hsa hsb
        simp only [List.nil_append] at hsa hsb
        rw [allWords_eq_map] at hsa hsb
        obtain ⟨u, _, rfl⟩ := List.mem_map.1 hsa
        obtain ⟨v, _, hv⟩ := List.mem_map.1 hsb
        simp only [List.singleton_append, List.cons.injEq] at hv
        exact hab hv.1.symm
    rw [allWords_mk]
    cases w with
    | false => simpa using hrange
    | true =>
      simp only [if_true]
      refine List.Nodup.append hrange (List.nodup_singleton _) ?_
      intro s hs hs'
      rw [List.mem_singleton] at hs'
      subst hs'
      obtain ⟨x, _, s', h, _⟩ := mem_allWordsRange.1 hs
      simp at h

theorem nodup_allWords {t : Trie} (hwf : t.WF) (p : List Rune) : (t.allWords p).Nodup := by
  rw [allWords_eq_map]
  exact List.Nodup.map (fun a b h => List.append_cancel_left h) (nodup_allWords_nil hwf)

theorem mem_allWords {t : Trie} (hwf : t.WF) (p s : List Rune) :
    s ∈ t.allWords p ↔ ∃ s', s = p ++ s' ∧ t.isWordAt s' = true := by
  rw [allWords_eq_map, List.mem_map]
  constructor
  · rintro ⟨s', hs', rfl⟩
    exact ⟨s', rfl, (mem_allWords_nil hwf s').1 hs'⟩
  · rintro ⟨s', rfl, hs'⟩
    exact ⟨s', (mem_allWords_nil hwf s').2 hs', rfl⟩

/-! ## Insertion -/

theorem addToTrie_nil (t : Trie) : addToTrie t [] = t := rfl

theorem addToTrie_single (t : Trie) (c : Rune) :
    addToTrie t [c] =
      Trie.mk (mapSet t.children c
        (Trie.mk ((mapGet t.children c).getD emptyNode).children true)) t.isWord := rfl

theorem addToTrie_cons_cons (t : Trie) (c d : Rune) (r : List Rune) :
    addToTrie t (c :: d :: r) =
      Trie.mk (mapSet t.children c
        (addToTrie ((mapGet t.children c).getD emptyNode) (d :: r))) t.isWord := rfl

theorem isWord_addToTrie (t : Trie) (w : List Rune) : (addToTrie t w).isWord = t.isWord := by
  cases w with
  | nil => rfl
  | cons c rest => cases rest <;> rfl

theorem WF_emptyNode : emptyNode.WF :=
  Trie.WF.mk [] false (by simp) (by simp)

theorem WF_children {t : Trie} (hwf : t.WF) :
    (t.children.map Prod.fst).Nodup ∧ ∀ x ∈ t.children, x.2.WF := by
  cases hwf with
  | mk cs w nd hch => exact ⟨nd, hch⟩

theorem WF_getD {t : Trie} (hwf : t.WF) (c : Rune) :
    ((mapGet t.children c).getD emptyNode).WF := by
  cases h : mapGet t.children c with
  | none => exact WF_emptyNode
  | some child => exact (WF_children hwf).2 _ (mapGet_mem h)

theorem WF_mapSet {t : Trie} (hwf : t.WF) (c : Rune) {v : Trie} (hv : v.WF) (w : Bool) :
    (Trie.mk (mapSet t.children c v) w).WF := by
  refine Trie.WF.mk _ _ (nodup_keys_mapSet c v (WF_children hwf).1) ?_
  intro x hx
  rcases mem_mapSet hx with h | h
  · exact (WF_children hwf).2 x h
  · rw [h]
    exact hv

theorem WF_addToTrie (w : List Rune) : ∀ {t : Trie}, t.WF → (addToTrie t w).WF := by
  induction w with
  | nil => intro t h; exact h
  | cons c rest ih =>
    intro t hwf
    have hnode := WF_getD hwf c
    cases rest with
    | nil =>
      rw [addToTrie_single]
      exact WF_mapSet hwf c (Trie.WF.mk _ _ (WF_children hnode).1 (WF_children hnode).2) _
    | cons d r =>
      rw [addToTrie_cons_cons]
      exact WF_mapSet hwf c (ih hnode) _

theorem foldl_addToTrie_WF (W : List (List Rune)) :
    ∀ {t : Trie}, t.WF → (W.foldl addToTrie t).WF := by
  induction W with
  | nil => intro t h; exact h
  | cons w rest ih => intro t h; exact ih (WF_addToTrie w h)

theorem WF_NewTrie (W : List (List Rune)) : (NewTrie W).WF :=
  foldl_addToTrie_WF W WF_emptyNode

theorem foldl_addToTrie_isWord (W : List (List Rune)) :
    ∀ t : Trie, (W.foldl addToTrie t).isWord = t.isWord := by
  induction W with
  | nil => intro t; rfl
  | cons w rest ih => intro t; simp [List.foldl, ih, isWord_addToTrie]

theorem isWord_NewTrie (W : List (List Rune)) : (NewTrie W).isWord = false :=
  foldl_addToTrie_isWord W emptyNode

theorem walk_cons (t : Trie) (c : Rune) (s : List Rune) :
    t.walk (c :: s) = match mapGet t.children c with
      | some child => child.walk s
      | none => none := rfl

theorem walk_emptyNode_cons (c : Rune) (s : List Rune) : emptyNode.walk (c :: s) = none := rfl

theorem isWordAt_emptyNode (s : List Rune) : emptyNode.isWordAt s = false := by
  cases s <;> rfl

theorem isWordAt_cons_getD (t : Trie) (c : Rune) (s : List Rune) :
    t.isWordAt (c :: s) = ((mapGet t.children c).getD emptyNode).isWordAt s := by
  rw [isWordAt_cons]
  cases mapGet t.children c with
  | none => simp [isWordAt_emptyNode]
  | some child => rfl

theorem isWordAt_addToTrie (w : List Rune) :
    ∀ (t : Trie) (p : List Rune),
      (addToTrie t w).isWordAt p = true ↔ t.isWordAt p = true ∨ (w ≠ [] ∧ p = w) := by
  induction w with
  | nil => intro t p; simp [addToTrie_nil]
  | cons c rest ih =>
    intro t p
    cases p with
    | nil =>
      rw [isWordAt_nil, isWordAt_nil, isWord_addToTrie]
      simp
    | cons d q =>
      rw [isWordAt_cons_getD t d q]
      by_cases hcd : c = d
      · subst hcd
        have key : ∀ v : Trie, (Trie.mk (mapSet t.children c v) t.isWord).isWordAt (c :: q)
            = v.isWordAt q := by
          intro v
          rw [isWordAt_cons]
          simp [Trie.children, mapGet_mapSet]
        cases rest with
        | nil =>
          rw [addToTrie_single, key]
          cases q with
          | nil => simp [isWordAt_nil, Trie.isWord]
          | cons e q' =>
            rw [isWordAt_cons, isWordAt_cons]
            simp [Trie.children]
        | cons e r =>
          rw [addToTrie_cons_cons, key, ih]
          simp
      · have key : ∀ v : Trie, (Trie.mk (mapSet t.children c v) t.isWord).isWordAt (d :: q)
            = t.isWordAt (d :: q) := by
          intro v
          rw [isWordAt_cons, isWordAt_cons]
          simp [Trie.children, mapGet_mapSet, hcd]
        have hne : ¬ (d = c) := fun h => hcd h.symm
        cases rest with
        | nil =>
          rw [addToTrie_single, key, isWordAt_cons_getD]
          simp [hne]
        | cons e r =>
          rw [addToTrie_cons_cons, key, isWordAt_cons_getD]
          simp [hne]

theorem isWordAt_foldl (W : List (List Rune)) :
    ∀ (t : Trie) (p : List Rune),
      (W.foldl addToTrie t).isWordAt p = true ↔ t.isWordAt p = true ∨ (p ≠ [] ∧ p ∈ W) := by
  induction W with
  | nil => intro t p; simp
  | cons w rest ih =>
    intro t p
    rw [List.foldl_cons, ih, isWordAt_addToTrie]
    constructor
    · rintro ((h | ⟨hw, rfl⟩) | ⟨hp, hmem⟩)
      · exact Or.inl h
      · exact Or.inr ⟨hw, List.mem_cons_self _ _⟩
      · exact Or.inr ⟨hp, List.mem_cons_of_mem _ hmem⟩
    · rintro (h | ⟨hp, hmem⟩)
      · exact Or.inl (Or.inl h)
      · rcases List.mem_cons.1 hmem with e | e
        · exact Or.inl (Or.inr ⟨e ▸ hp, e⟩)
        · exact Or.inr ⟨hp, e⟩

/-- The flag at the end of a path in `NewTrie W` is set exactly for the
non-empty words of `W`. -/
theorem isWordAt_NewTrie (W : List (List Rune)) (p : List Rune) :
    (NewTrie W).isWordAt p = true ↔ p ≠ [] ∧ p ∈ W := by
  unfold NewTrie
  rw [isWordAt_foldl]
  simp [isWordAt_emptyNode]

/-! ## Enumeration of a built trie -/

theorem mem_AllWords {t : Trie} (hwf : t.WF) (s : List Rune) :
    s ∈ t.AllWords ↔ s ≠ [] ∧ t.isWordAt s = true := by
  unfold Trie.AllWords
  rw [mem_allWordsRange]
  constructor
  · rintro ⟨x, hx, s', rfl, hs'⟩
    refine ⟨by simp, ?_⟩
    rw [List.nil_append, isWordAt_cons, mapGet_of_mem (WF_children hwf).1 hx]
    exact (mem_allWords_nil ((WF_children hwf).2 x hx) s').1 hs'
  · rintro ⟨hne, hs⟩
    cases s with
    | nil => exact absurd rfl hne
    | cons c s' =>
      rw [isWordAt_cons] at hs
      cases hget : mapGet t.children c with
      | none => simp [hget] at hs
      | some child =>
        rw [hget] at hs
        have hmem := mapGet_mem hget
        exact ⟨(c, child), hmem, s', rfl,
          (mem_allWords_nil ((WF_children hwf).2 _ hmem) s').2 hs⟩

theorem nodup_AllWords {t : Trie} (hwf : t.WF) : t.AllWords.Nodup := by
  have h := nodup_allWords_nil hwf
  rw [allWords_nil] at h
  split at h
  · exact (List.nodup_append.1 h).1
  · exact h

theorem WF_walk {t : Trie} (hwf : t.WF) {p : List Rune} {node : Trie}
    (h : t.walk p = some node) : node.WF := by
  induction p generalizing t with
  | nil =>
    simp only [Trie.walk, Option.some.injEq] at h
    exact h ▸ hwf
  | cons c rest ih =>
    rw [walk_cons] at h
    cases hget : mapGet t.children c with
    | none => simp [hget] at h
    | some child =>
      rw [hget] at h
      exact ih ((WF_children hwf).2 _ (mapGet_mem hget)) h

theorem walk_append (t : Trie) (p q : List Rune) :
    t.walk (p ++ q) = match t.walk p with
      | some node => node.walk q
      | none => none := by
  induction p generalizing t with
  | nil => simp [Trie.walk]
  | cons c rest ih =>
    rw [List.cons_append, walk_cons, walk_cons]
    cases mapGet t.children c with
    | none => rfl
    | some child => exact ih child

theorem isWordAt_append (t : Trie) (p q : List Rune) :
    t.isWordAt (p ++ q) = match t.walk p with
      | some node => node.isWordAt q
      | none => false := by
  unfold Trie.isWordAt
  rw [walk_append]
  cases t.walk p <;> rfl

theorem mem_AllWithPrefix {t : Trie} (hwf : t.WF) (p s : List Rune) :
    s ∈ t.AllWithPrefix p ↔ p <+: s ∧ t.isWordAt s = true := by
  rw [AllWithPrefix_eq]
  cases hw : t.walk p with
  | none =>
    simp only [List.not_mem_nil, false_iff, not_and]
    rintro ⟨q, rfl⟩
    rw [isWordAt_append, hw]
    simp
  | some node =>
    simp only
    rw [mem_allWords (WF_walk hwf hw)]
    constructor
    · rintro ⟨s', rfl, hs'⟩
      refine ⟨List.prefix_append _ _, ?_⟩
      rw [isWordAt_append, hw]
      exact hs'
    · rintro ⟨⟨q, rfl⟩, hs⟩
      rw [isWordAt_append, hw] at hs
      exact ⟨q, rfl, hs⟩

theorem nodup_AllWithPrefix {t : Trie} (hwf : t.WF) (p : List Rune) :
    (t.AllWithPrefix p).Nodup := by
  rw [AllWithPrefix_eq]
  cases hw : t.walk p with
  | none => simp
  | some node => exact nodup_allWords (WF_walk hwf hw) p

theorem mem_wordsWithPrefix (W : List (List Rune)) (p s : List Rune) :
    s ∈ wordsWithPrefix W p ↔ s ∈ W ∧ p <+: s := by
  simp [wordsWithPrefix, List.mem_filter]

/-! ## Claims -/

/-- C1. Round trip: for a list `W` of non-empty words, `NewTrie(W).AllWords()` is a
permutation of `W` with duplicates removed: it has no repetition and contains
exactly the words of `W`. -/
theorem C1_roundtrip (W : List (List Rune)) (hW : ∀ w ∈ W, w ≠ []) :
    (NewTrie W).AllWords.Perm W.dedup ∧ (NewTrie W).AllWords.Nodup ∧
      ∀ w, w ∈ (NewTrie W).AllWords ↔ w ∈ W := by
  have hmem : ∀ w, w ∈ (NewTrie W).AllWords ↔ w ∈ W := by
    intro w
    rw [mem_AllWords (WF_NewTrie W), isWordAt_NewTrie]
    exact ⟨fun h => h.2.2, fun h => ⟨hW w h, hW w h, h⟩⟩
  have hnd := nodup_AllWords (WF_NewTrie W)
  refine ⟨?_, hnd, hmem⟩
  rw [List.perm_ext_iff_of_nodup hnd (List.nodup_dedup W)]
  intro w
  rw [hmem, List.mem_dedup]

/-- C2. For a list `W` of non-empty words and any string `p`,
`NewTrie(W).AllWithPrefix(p)` is a permutation of the de-duplicated list of the
words of `W` that begin with `p`; every result begins with `p`, and `p` itself
is among the results when it is a word of `W`. -/
theorem C2_allWithPrefix (W : List (List Rune)) (p : List Rune) (hW : ∀ w ∈ W, w ≠ []) :
    ((NewTrie W).AllWithPrefix p).Perm (wordsWithPrefix W p).dedup ∧
      (∀ s ∈ (NewTrie W).AllWithPrefix p, p <+: s) ∧
      (p ∈ W → p ∈ (NewTrie W).AllWithPrefix p) := by
  have hmem : ∀ s, s ∈ (NewTrie W).AllWithPrefix p ↔ s ∈ W ∧ p <+: s := by
    intro s
    rw [mem_AllWithPrefix (WF_NewTrie W), isWordAt_NewTrie]
    exact ⟨fun h => ⟨h.2.2, h.1⟩, fun h => ⟨h.2, hW s h.1, h.1⟩⟩
  refine ⟨?_, fun s hs => ((hmem s).1 hs).2, fun hp => (hmem p).2 ⟨hp, List.prefix_refl p⟩⟩
  rw [List.perm_ext_iff_of_nodup (nodup_AllWithPrefix (WF_NewTrie W) p) (List.nodup_dedup _)]
  intro s
  rw [hmem, List.mem_dedup, mem_wordsWithPrefix]

theorem C1_roundtrip_witness :
    (∀ w ∈ smallWords, w ≠ []) ∧ (NewTrie smallWords).AllWords.Perm smallWords.dedup :=
  ⟨by decide, (C1_roundtrip smallWords (by decide)).1⟩

theorem C2_allWithPrefix_witness :
    (∀ w ∈ fixtureWords, w ≠ []) ∧
      ((NewTrie fixtureWords).AllWithPrefix ['a', 'b', 'b']).Perm
        (wordsWithPrefix fixtureWords ['a', 'b', 'b']).dedup :=
  ⟨by decide, (C2_allWithPrefix fixtureWords ['a', 'b', 'b'] (by decide)).1⟩

/-! ## The cursor -/

theorem Add_absent {ac : AutoCompleter} {top : Trie} {r : Rune}
    (htop : ac.stack.getLast? = some top) (h : mapGet top.children r = none) :
    ac.Add r = some (ac, some GoError.ErrNoMatches) := by
  simp [AutoCompleter.Add, htop, h]

theorem Add_present {ac : AutoCompleter} {top next : Trie} {r : Rune}
    (htop : ac.stack.getLast? = some top) (h : mapGet top.children r = some next) :
    ac.Add r = some ({ pfx := ac.pfx ++ [r], stack := ac.stack ++ [next] }, none) := by
  simp [AutoCompleter.Add, htop, h]

theorem CursorInv.top {t : Trie} {ac : AutoCompleter} (h : CursorInv t ac) :
    ∃ s top, ac.stack = s ++ [top] ∧ t.walk ac.pfx = some top := by
  induction h with
  | root => exact ⟨[], t, rfl, rfl⟩
  | @push p s top next r _ hget ih =>
    obtain ⟨s0, top0, hs, hw⟩ := ih
    have htop : top0 = top := by
      have := List.append_inj' hs rfl
      simpa using this.2.symm
    subst htop
    refine ⟨s ++ [top0], next, rfl, ?_⟩
    show t.walk (p ++ [r]) = some next
    rw [walk_append]
    simp only at hw
    rw [hw]
    simp [Trie.walk, hget]

theorem CursorInv.getLast {t : Trie} {ac : AutoCompleter} (h : CursorInv t ac) :
    ∃ top, ac.stack.getLast? = some top ∧ t.walk ac.pfx = some top := by
  obtain ⟨s, top, hs, hw⟩ := h.top
  exact ⟨top, by rw [hs, List.getLast?_concat], hw⟩

theorem CursorInv.add {t : Trie} {ac ac' : AutoCompleter} {err : Option GoError} {r : Rune}
    (h : CursorInv t ac) (hadd : ac.Add r = some (ac', err)) : CursorInv t ac' := by
  obtain ⟨s, top, hs, _⟩ := h.top
  have htop : ac.stack.getLast? = some top := by rw [hs, List.getLast?_concat]
  cases hget : mapGet top.children r with
  | none =>
    rw [Add_absent htop hget] at hadd
    cases hadd
    exact h
  | some next =>
    rw [Add_present htop hget] at hadd
    cases hadd
    obtain ⟨p, st⟩ := ac
    simp only at hs
    subst hs
    exact CursorInv.push h hget

theorem CursorInv.addString {t : Trie} (str : List Rune) :
    ∀ {ac ac' : AutoCompleter} {err : Option GoError},
      CursorInv t ac → ac.AddString str = some (ac', err) → CursorInv t ac' := by
  induction str with
  | nil =>
    intro ac ac' err h hs
    simp only [AutoCompleter.AddString, Option.some.injEq, Prod.mk.injEq] at hs
    exact hs.1 ▸ h
  | cons r rest ih =>
    intro ac ac' err h hs
    simp only [AutoCompleter.AddString] at hs
    cases hadd : ac.Add r with
    | none => simp [hadd] at hs
    | some res =>
      obtain ⟨ac1, e1⟩ := res
      have h1 := h.add hadd
      cases e1 with
      | some e =>
        simp only [hadd, Option.some.injEq, Prod.mk.injEq] at hs
        exact hs.1 ▸ h1
      | none =>
        simp only [hadd] at hs
        exact ih h1 hs

theorem CursorInv.delete {t : Trie} {ac ac' : AutoCompleter}
    (h : CursorInv t ac) (hdel : ac.Delete = some ac') : CursorInv t ac' := by
  cases h with
  | root =>
    simp only [AutoCompleter.Delete, List.length_nil, if_true, Option.some.injEq] at hdel
    exact hdel ▸ CursorInv.root
  | @push p s top next r hprev hget =>
    simp [AutoCompleter.Delete, List.dropLast_concat] at hdel
    rw [← hdel]
    exact hprev

theorem Reachable.inv {t : Trie} {ac : AutoCompleter} (h : Reachable t ac) : CursorInv t ac := by
  induction h with
  | init => exact CursorInv.root
  | add r _ hadd ih => exact ih.add hadd
  | addString s _ hs ih => exact CursorInv.addString s ih hs
  | delete _ hdel ih => exact ih.delete hdel

theorem Add_ok_inv {ac ac1 : AutoCompleter} {r : Rune} (h : ac.Add r = some (ac1, none)) :
    ∃ top next, ac.stack.getLast? = some top ∧ mapGet top.children r = some next ∧
      ac1 = { pfx := ac.pfx ++ [r], stack := ac.stack ++ [next] } := by
  unfold AutoCompleter.Add at h
  cases htop : ac.stack.getLast? with
  | none => simp [htop] at h
  | some top =>
    cases hget : mapGet top.children r with
    | none => simp [htop, hget] at h
    | some next =>
      simp only [htop, hget, Option.some.injEq, Prod.mk.injEq, and_true] at h
      exact ⟨top, next, rfl, hget, h.symm⟩

theorem AddsSucceed.pfx_eq {ac ac' : AutoCompleter} {p : List Rune}
    (h : AddsSucceed ac p ac') : ac'.pfx = ac.pfx ++ p := by
  induction h with
  | done ac => simp
  | step hadd _ ih =>
    obtain ⟨_, _, _, _, rfl⟩ := Add_ok_inv hadd
    simpa using ih

theorem AddsSucceed.keepsInv {t : Trie} {ac ac' : AutoCompleter} {p : List Rune}
    (h : AddsSucceed ac p ac') (hinv : CursorInv t ac) : CursorInv t ac' := by
  induction h with
  | done ac => exact hinv
  | step hadd _ ih => exact ih (hinv.add hadd)

theorem AllMatches_eq {ac : AutoCompleter} {top : Trie} (htop : ac.stack.getLast? = some top) :
    ac.AllMatches = some (top.allWords ac.pfx) := by
  unfold AutoCompleter.AllMatches
  rw [htop, allWords_eq_map top ac.pfx, allWords_nil]
  cases h : top.isWord <;> simp [h]

theorem navigable_cons (node : Trie) (c : Rune) (rest : List Rune) :
    navigable node (c :: rest) = match mapGet node.children c with
      | some child => c :: navigable child rest
      | none => [] := rfl

theorem navigable_prefix (s : List Rune) : ∀ node : Trie, navigable node s <+: s := by
  induction s with
  | nil => intro node; exact List.prefix_refl _
  | cons c rest ih =>
    intro node
    rw [navigable_cons]
    cases mapGet node.children c with
    | none => exact List.nil_prefix
    | some child => exact (List.prefix_cons_inj c).2 (ih child)

theorem walk_navigable (s : List Rune) :
    ∀ node : Trie, (node.walk (navigable node s)).isSome = true := by
  induction s with
  | nil => intro node; rfl
  | cons c rest ih =>
    intro node
    rw [navigable_cons]
    cases hget : mapGet node.children c with
    | none => rfl
    | some child =>
      simp only [walk_cons, hget]
      exact ih child

theorem navigable_longest (s : List Rune) :
    ∀ (node : Trie) (q : List Rune), q <+: s → (node.walk q).isSome = true →
      q <+: navigable node s := by
  induction s with
  | nil =>
    intro node q hq _
    rw [List.prefix_nil] at hq
    subst hq
    exact List.nil_prefix
  | cons c rest ih =>
    intro node q hq hw
    cases q with
    | nil => exact List.nil_prefix
    | cons d q' =>
      obtain ⟨rfl, hq'⟩ := List.cons_prefix_cons.1 hq
      rw [navigable_cons]
      rw [walk_cons] at hw
      cases hget : mapGet node.children d with
      | none => simp [hget] at hw
      | some child =>
        rw [hget] at hw
        exact (List.prefix_cons_inj d).2 (ih child q' hq' hw)

theorem AddString_spec (s : List Rune) :
    ∀ (ac : AutoCompleter) (top : Trie), ac.stack.getLast? = some top →
      ∃ ac', ac.AddString s =
          some (ac', if navigable top s = s then none else some GoError.ErrNoMatches) ∧
        AddsSucceed ac (navigable top s) ac' := by
  induction s with
  | nil =>
    intro ac top _
    exact ⟨ac, by simp [AutoCompleter.AddString, navigable], AddsSucceed.done ac⟩
  | cons r rest ih =>
    intro ac top htop
    rw [navigable_cons]
    cases hget : mapGet top.children r with
    | none =>
      refine ⟨ac, ?_, AddsSucceed.done ac⟩
      simp [AutoCompleter.AddString, Add_absent htop hget]
    | some next =>
      have hadd := Add_present htop hget
      have htop1 : (AutoCompleter.mk (ac.pfx ++ [r]) (ac.stack ++ [next])).stack.getLast?
          = some next := by simp
      obtain ⟨ac', hs, hsucc⟩ := ih _ next htop1
      refine ⟨ac', ?_, AddsSucceed.step hadd hsucc⟩
      simp only [AutoCompleter.AddString, hadd, hs, List.cons.injEq, true_and]

/-! ## Paths of a built trie -/

theorem walk_isSome_getD (t : Trie) (c : Rune) (q : List Rune) :
    (((mapGet t.children c).getD emptyNode).walk q).isSome = true ↔
      (t.walk (c :: q)).isSome = true ∨ q = [] := by
  rw [walk_cons]
  cases mapGet t.children c with
  | none =>
    cases q with
    | nil => simp [Trie.walk]
    | cons d q' => simp [walk_emptyNode_cons]
  | some child =>
    cases q with
    | nil => simp [Trie.walk]
    | cons d q' => simp

theorem walk_isSome_mk (cs : List (Rune × Trie)) (w w' : Bool) (q : List Rune) :
    ((Trie.mk cs w).walk q).isSome = ((Trie.mk cs w').walk q).isSome := by
  cases q with
  | nil => rfl
  | cons d q' => rfl

theorem walk_isSome_addToTrie (w : List Rune) :
    ∀ (t : Trie) (p : List Rune),
      ((addToTrie t w).walk p).isSome = true ↔ (t.walk p).isSome = true ∨ p <+: w := by
  induction w with
  | nil => intro t p; cases p <;> simp [addToTrie_nil, Trie.walk]
  | cons c rest ih =>
    intro t p
    cases p with
    | nil => simp [Trie.walk]
    | cons d q =>
      by_cases hcd : c = d
      · subst hcd
        have key : ∀ v : Trie, (Trie.mk (mapSet t.children c v) t.isWord).walk (c :: q)
            = v.walk q := by
          intro v
          rw [walk_cons]
          simp [Trie.children, mapGet_mapSet]
        have hnode := walk_isSome_getD t c q
        rw [List.prefix_cons_inj]
        cases rest with
        | nil =>
          rw [addToTrie_single, key]
          have e : ((Trie.mk ((mapGet t.children c).getD emptyNode).children true).walk q).isSome
              = (((mapGet t.children c).getD emptyNode).walk q).isSome := by
            cases hn : (mapGet t.children c).getD emptyNode with
            | mk cs w0 => exact walk_isSome_mk cs true w0 q
          rw [e, hnode, List.prefix_nil]
        | cons e r =>
          rw [addToTrie_cons_cons, key, ih, hnode]
          constructor
          · rintro ((h | h) | h)
            · exact Or.inl h
            · exact Or.inr (h ▸ List.nil_prefix)
            · exact Or.inr h
          · rintro (h | h)
            · exact Or.inl (Or.inl h)
            · exact Or.inr h
      · have key : ∀ v : Trie, (Trie.mk (mapSet t.children c v) t.isWord).walk (d :: q)
            = t.walk (d :: q) := by
          intro v
          rw [walk_cons, walk_cons]
          simp [Trie.children, mapGet_mapSet, hcd]
        have hnp : ¬ (d :: q <+: c :: rest) := by
          intro h
          exact hcd (List.cons_prefix_cons.1 h).1.symm
        cases rest with
        | nil =>
          rw [addToTrie_single, key]
          simp [hnp]
        | cons e r =>
          rw [addToTrie_cons_cons, key]
          simp [hnp]

theorem walk_isSome_foldl (W : List (List Rune)) :
    ∀ (t : Trie) (p : List Rune),
      ((W.foldl addToTrie t).walk p).isSome = true ↔
        (t.walk p).isSome = true ∨ ∃ w ∈ W, p <+: w := by
  induction W with
  | nil => intro t p; simp
  | cons w rest ih =>
    intro t p
    rw [List.foldl_cons, ih, walk_isSome_addToTrie]
    simp only [List.mem_cons, exists_eq_or_imp, or_assoc]

/-- A path exists in `NewTrie W` exactly when it is empty or a leading part of
a word of `W`. -/
theorem walk_isSome_NewTrie (W : List (List Rune)) (p : List Rune) :
    ((NewTrie W).walk p).isSome = true ↔ p = [] ∨ ∃ w ∈ W, p <+: w := by
  unfold NewTrie
  rw [walk_isSome_foldl]
  cases p with
  | nil => simp [Trie.walk]
  | cons c q => simp [walk_emptyNode_cons]

theorem smallCursor_reachable : Reachable (NewTrie smallWords) smallCursor :=
  @Reachable.addString (NewTrie smallWords) (NewAutoCompleter (NewTrie smallWords))
    smallCursor none ['a', 'b'] Reachable.init rfl

/-- C3. Cursor/trie equivalence: when `Add` succeeds on every symbol of `p` in
turn, starting from `NewAutoCompleter(NewTrie(W))`, `AllMatches()` on the
resulting cursor returns the same strings with the same multiplicities as
`AllWithPrefix(p)`; a fresh cursor returns those of `AllWords()`. -/
theorem C3_cursor_trie_equiv (W : List (List Rune)) (p : List Rune) (ac : AutoCompleter)
    (h : AddsSucceed (NewAutoCompleter (NewTrie W)) p ac) :
    (∃ m, ac.AllMatches = some m ∧ m.Perm ((NewTrie W).AllWithPrefix p)) ∧
      (∃ m0, (NewAutoCompleter (NewTrie W)).AllMatches = some m0 ∧
        m0.Perm (NewTrie W).AllWords) := by
  constructor
  · have hinv : CursorInv (NewTrie W) ac := h.keepsInv CursorInv.root
    have hp : ac.pfx = p := by simpa [NewAutoCompleter] using h.pfx_eq
    obtain ⟨top, htop, hw⟩ := hinv.getLast
    refine ⟨_, AllMatches_eq htop, ?_⟩
    rw [AllWithPrefix_eq, ← hp, hw]
  · have htop : (NewAutoCompleter (NewTrie W)).stack.getLast? = some (NewTrie W) := rfl
    refine ⟨_, AllMatches_eq htop, ?_⟩
    show ((NewTrie W).allWords []).Perm (NewTrie W).AllWords
    rw [allWords_nil, isWord_NewTrie]
    simp

theorem C3_cursor_trie_equiv_witness :
    ∃ m, smallCursor.AllMatches = some m ∧
      m.Perm ((NewTrie smallWords).AllWithPrefix ['a', 'b']) :=
  (C3_cursor_trie_equiv smallWords ['a', 'b'] smallCursor
    (AddsSucceed.step rfl (AddsSucceed.step rfl (AddsSucceed.done _)))).1

/-- C4. In every cursor state reachable from `NewAutoCompleter`, `Add(r)` returns
`ErrNoMatches` and leaves prefix and stack unchanged when the node on top of the
stack has no child for `r`; otherwise it returns no error, appends `r` to the
prefix and pushes that child. -/
theorem C4_add (t : Trie) (ac : AutoCompleter) (r : Rune) (h : Reachable t ac) :
    ∃ top, ac.stack.getLast? = some top ∧
      (mapGet top.children r = none → ac.Add r = some (ac, some GoError.ErrNoMatches)) ∧
      (∀ next, mapGet top.children r = some next →
        ac.Add r = some ({ pfx := ac.pfx ++ [r], stack := ac.stack ++ [next] }, none)) := by
  obtain ⟨top, htop, _⟩ := h.inv.getLast
  exact ⟨top, htop, fun hn => Add_absent htop hn, fun next hn => Add_present htop hn⟩

theorem C4_add_witness :
    ∃ top, smallCursor.stack.getLast? = some top ∧
      (mapGet top.children 'd' = none →
        smallCursor.Add 'd' = some (smallCursor, some GoError.ErrNoMatches)) ∧
      (∀ next, mapGet top.children 'd' = some next →
        smallCursor.Add 'd' =
          some ({ pfx := smallCursor.pfx ++ ['d'], stack := smallCursor.stack ++ [next] },
            none)) :=
  C4_add (NewTrie smallWords) smallCursor 'd' smallCursor_reachable

/-- C5. On a cursor over `NewTrie(W)` reachable by `Add`, `AddString` and `Delete`,
with tracked prefix `P`, `Add(r)` returns `ErrNoMatches` exactly when no word of
`W` starts with `P` followed by `r`, and succeeds exactly when some word does. -/
theorem C5_add_error_iff (W : List (List Rune)) (ac : AutoCompleter) (r : Rune)
    (h : Reachable (NewTrie W) ac) :
    ∃ ac' err, ac.Add r = some (ac', err) ∧
      (err = some GoError.ErrNoMatches ↔ ¬ ∃ w ∈ W, ac.pfx ++ [r] <+: w) ∧
      (err = none ↔ ∃ w ∈ W, ac.pfx ++ [r] <+: w) := by
  obtain ⟨top, htop, hw⟩ := h.inv.getLast
  have hpath := walk_isSome_NewTrie W (ac.pfx ++ [r])
  rw [walk_append, hw] at hpath
  simp only [walk_cons, List.append_eq_nil, List.cons_ne_self, and_false, false_or,
    reduceCtorEq] at hpath
  cases hget : mapGet top.children r with
  | none =>
    rw [hget] at hpath
    have hno : ¬ ∃ w ∈ W, ac.pfx ++ [r] <+: w := fun hex => by
      have := hpath.2 hex
      simp at this
    exact ⟨ac, _, Add_absent htop hget, by simp [hno], by simp [hno]⟩
  | some next =>
    rw [hget] at hpath
    have hyes : ∃ w ∈ W, ac.pfx ++ [r] <+: w := hpath.1 (by simp [Trie.walk])
    exact ⟨_, _, Add_present htop hget, by simp [hyes], by simp [hyes]⟩

theorem C5_add_error_iff_witness :
    ∃ ac' err, smallCursor.Add 'c' = some (ac', err) ∧
      (err = some GoError.ErrNoMatches ↔ ¬ ∃ w ∈ smallWords, smallCursor.pfx ++ ['c'] <+: w) ∧
      (err = none ↔ ∃ w ∈ smallWords, smallCursor.pfx ++ ['c'] <+: w) :=
  C5_add_error_iff smallWords smallCursor 'c' smallCursor_reachable

/-- C6. In a reachable cursor state with prefix `P`, `AddString(s)` applies `Add`
to the symbols of `s` in order up to the first failure: afterwards the prefix is
`P` followed by the longest leading part of `s` that can be navigated from the
node on top of the stack, the symbols of that part having been added by
successful `Add` calls; the error is `nil` iff that part is all of `s` and
`ErrNoMatches` otherwise. -/
theorem C6_addString (t : Trie) (ac : AutoCompleter) (s : List Rune) (h : Reachable t ac) :
    ∃ top ac' err, ac.stack.getLast? = some top ∧ ac.AddString s = some (ac', err) ∧
      AddsSucceed ac (navigable top s) ac' ∧
      ac'.pfx = ac.pfx ++ navigable top s ∧
      navigable top s <+: s ∧ (top.walk (navigable top s)).isSome = true ∧
      (∀ q, q <+: s → (top.walk q).isSome = true → q <+: navigable top s) ∧
      (err = none ↔ navigable top s = s) ∧
      (err ≠ none → err = some GoError.ErrNoMatches) := by
  obtain ⟨top, htop, _⟩ := h.inv.getLast
  obtain ⟨ac', hs, hsucc⟩ := AddString_spec s ac top htop
  refine ⟨top, ac', _, htop, hs, hsucc, hsucc.pfx_eq, navigable_prefix s top,
    walk_navigable s top, navigable_longest s top, ?_, ?_⟩
  · by_cases e : navigable top s = s <;> simp [e]
  · by_cases e : navigable top s = s <;> simp [e]

theorem C6_addString_witness :
    ∃ top ac' err, smallCursor.stack.getLast? = some top ∧
      smallCursor.AddString ['c', 'x'] = some (ac', err) ∧
      AddsSucceed smallCursor (navigable top ['c', 'x']) ac' ∧
      ac'.pfx = smallCursor.pfx ++ navigable top ['c', 'x'] ∧
      navigable top ['c', 'x'] <+: ['c', 'x'] ∧
      (top.walk (navigable top ['c', 'x'])).isSome = true ∧
      (∀ q, q <+: ['c', 'x'] → (top.walk q).isSome = true → q <+: navigable top ['c', 'x']) ∧
      (err = none ↔ navigable top ['c', 'x'] = ['c', 'x']) ∧
      (err ≠ none → err = some GoError.ErrNoMatches) :=
  C6_addString (NewTrie smallWords) smallCursor ['c', 'x'] smallCursor_reachable

/-- C7. Delete undoes Add: when `Add(r)` succeeds in a cursor state (reachable
or not), a following `Delete()` returns the cursor to exactly that state (same
prefix, same stack), hence to the same `AllMatches()`. -/
theorem C7_delete_undoes_add (ac ac' : AutoCompleter) (r : Rune)
    (hadd : ac.Add r = some (ac', none)) :
    ac'.Delete = some ac ∧
      ∃ m, ac.AllMatches = some m ∧ (ac'.Delete).bind AutoCompleter.AllMatches = some m := by
  obtain ⟨top, next, htop, _, rfl⟩ := Add_ok_inv hadd
  have hdel : (AutoCompleter.mk (ac.pfx ++ [r]) (ac.stack ++ [next])).Delete = some ac := by
    simp [AutoCompleter.Delete, List.dropLast_concat]
  refine ⟨hdel, _, AllMatches_eq htop, ?_⟩
  rw [hdel]
  exact AllMatches_eq htop

theorem C7_delete_undoes_add_witness :
    ∃ ac', (NewAutoCompleter (NewTrie smallWords)).Add 'a' = some (ac', none) ∧
      ac'.Delete = some (NewAutoCompleter (NewTrie smallWords)) :=
  ⟨_, rfl, (C7_delete_undoes_add (NewAutoCompleter (NewTrie smallWords)) _ 'a' rfl).1⟩

/-- C8. Delete inverts Add: in a reachable cursor state whose prefix is non-empty
with last symbol `r`, `Delete()` followed by `Add(r)` succeeds, restores the
state, and so yields an `AllMatches()` result with the same strings as before. -/
theorem C8_delete_then_add (t : Trie) (ac : AutoCompleter) (r : Rune)
    (h : Reachable t ac) (hr : ac.pfx.getLast? = some r) :
    ∃ ac1 ac2 m m', ac.Delete = some ac1 ∧ ac1.Add r = some (ac2, none) ∧ ac2 = ac ∧
      ac2.AllMatches = some m ∧ ac.AllMatches = some m' ∧ m.Perm m' := by
  have hinv := h.inv
  clear h
  cases hinv with
  | root => simp at hr
  | @push p s top next r' hprev hget =>
    have hrr : r' = r := by simpa using hr
    subst hrr
    have htop1 : (AutoCompleter.mk p (s ++ [top])).stack.getLast? = some top := by simp
    have htop2 : (AutoCompleter.mk (p ++ [r']) (s ++ [top] ++ [next])).stack.getLast?
        = some next := by simp
    refine ⟨{ pfx := p, stack := s ++ [top] }, _, _, _, ?_, Add_present htop1 hget, rfl,
      AllMatches_eq htop2, AllMatches_eq htop2, List.Perm.refl _⟩
    simp [AutoCompleter.Delete, List.dropLast_concat]

theorem C8_delete_then_add_witness :
    smallCursor.pfx.getLast? = some 'b' ∧
      ∃ ac1 ac2 m m', smallCursor.Delete = some ac1 ∧ ac1.Add 'b' = some (ac2, none) ∧
        ac2 = smallCursor ∧ ac2.AllMatches = some m ∧ smallCursor.AllMatches = some m' ∧
        m.Perm m' :=
  ⟨rfl, C8_delete_then_add (NewTrie smallWords) smallCursor 'b' smallCursor_reachable rfl⟩

theorem deleteTimes_empty (k : Nat) (ac : AutoCompleter) (he : ac.pfx = []) :
    deleteTimes k ac = some ac := by
  induction k with
  | zero => rfl
  | succ k ih => simp [deleteTimes, AutoCompleter.Delete, he, ih]

/-- C9. Delete saturates at empty: on a reachable cursor over `NewTrie(W)` whose
prefix is empty, any number `k` of `Delete()` calls leaves the state unchanged
(prefix empty, stack holding only the root, no panic) and `AllMatches()` returns
the strings of `AllWords()`. -/
theorem C9_delete_saturates (W : List (List Rune)) (ac : AutoCompleter) (k : Nat)
    (h : Reachable (NewTrie W) ac) (he : ac.pfx = []) :
    ∃ ac' m, deleteTimes k ac = some ac' ∧ ac' = ac ∧ ac'.pfx = [] ∧
      ac'.stack = [NewTrie W] ∧ ac'.AllMatches = some m ∧ m.Perm (NewTrie W).AllWords := by
  have hinv := h.inv
  clear h
  cases hinv with
  | root =>
    have htop : (AutoCompleter.mk [] [NewTrie W]).stack.getLast? = some (NewTrie W) := rfl
    refine ⟨_, _, deleteTimes_empty k _ rfl, rfl, rfl, rfl, AllMatches_eq htop, ?_⟩
    show ((NewTrie W).allWords []).Perm (NewTrie W).AllWords
    rw [allWords_nil, isWord_NewTrie]
    simp
  | push _ _ => simp at he

theorem C9_delete_saturates_witness :
    ∃ ac' m, deleteTimes 3 (NewAutoCompleter (NewTrie smallWords)) = some ac' ∧
      ac' = NewAutoCompleter (NewTrie smallWords) ∧ ac'.pfx = [] ∧
      ac'.stack = [NewTrie smallWords] ∧ ac'.AllMatches = some m ∧
      m.Perm (NewTrie smallWords).AllWords :=
  C9_delete_saturates smallWords (NewAutoCompleter (NewTrie smallWords)) 3 Reachable.init rfl

/-- C10 (as stated) fails for the empty word: `NewTrie([""])` ignores the empty
string, so `AllWithPrefix("")` does not contain it. -/
theorem C10_counterexample :
    ([] : List Rune) ∈ [([] : List Rune)] ∧ ([] : List Rune) <+: [] ∧
      ([] : List Rune) ∉ (NewTrie [[]]).AllWithPrefix [] := by
  refine ⟨by simp, List.prefix_refl _, ?_⟩
  simp [NewTrie, addToTrie, Trie.AllWithPrefix, Trie.allWithPrefix, emptyNode, Trie.isWord,
    Trie.AllWords, Trie.children, allWordsRange]

/-- C10 (amended). Prefix consistency: for every list of words `W`, every
non-empty word `w` of `W` and every prefix `p` of `w` (the empty prefix and `w`
itself included), `NewTrie(W).AllWithPrefix(p)` contains `w`. -/
theorem C10_prefix_consistency (W : List (List Rune)) (w p : List Rune)
    (hw : w ∈ W) (hne : w ≠ []) (hp : p <+: w) : w ∈ (NewTrie W).AllWithPrefix p := by
  rw [mem_AllWithPrefix (WF_NewTrie W), isWordAt_NewTrie]
  exact ⟨hp, hne, hw⟩

theorem C10_prefix_consistency_witness :
    ['a', 'b', 'c'] ∈ smallWords ∧ ['a', 'b', 'c'] ≠ ([] : List Rune) ∧
      ['a'] <+: ['a', 'b', 'c'] ∧
      ['a', 'b', 'c'] ∈ (NewTrie smallWords).AllWithPrefix ['a'] :=
  ⟨by decide, by decide, by decide,
    C10_prefix_consistency smallWords ['a', 'b', 'c'] ['a'] (by decide) (by decide) (by decide)⟩

/-! ## Further claims on enumeration and insertion -/

/-- C11. Prefix emptiness: when `p` is not a prefix of any word of `W`,
`NewTrie(W).AllWithPrefix(p)` is the empty result, wherever `p` leaves the
trie. -/
theorem C11_prefix_emptiness (W : List (List Rune)) (p : List Rune)
    (h : ∀ w ∈ W, ¬ p <+: w) : (NewTrie W).AllWithPrefix p = [] := by
  rw [List.eq_nil_iff_forall_not_mem]
  intro s hs
  rw [mem_AllWithPrefix (WF_NewTrie W), isWordAt_NewTrie] at hs
  exact h s hs.2.2 hs.1

theorem C11_prefix_emptiness_witness :
    (∀ w ∈ fixtureWords, ¬ ['a', 'b', 'x'] <+: w) ∧
      (NewTrie fixtureWords).AllWithPrefix ['a', 'b', 'x'] = [] :=
  ⟨by decide, C11_prefix_emptiness fixtureWords ['a', 'b', 'x'] (by decide)⟩

/-- Apart from the empty input on the empty trie, `AddString(s)` returns
`ErrNoMatches` whenever no word of `W` starts with the tracked prefix followed
by `s`. -/
theorem AddString_noMatches (W : List (List Rune)) (ac : AutoCompleter) (s : List Rune)
    (h : Reachable (NewTrie W) ac) (hs : s ≠ [] ∨ W ≠ [])
    (hno : ¬ ∃ w ∈ W, ac.pfx ++ s <+: w) :
    ∃ ac', ac.AddString s = some (ac', some GoError.ErrNoMatches) := by
  obtain ⟨top, htop, hw⟩ := h.inv.getLast
  obtain ⟨ac', hadd, _⟩ := AddString_spec s ac top htop
  have hne : navigable top s ≠ s := by
    intro e
    have h1 := walk_navigable s top
    rw [e] at h1
    have h2 : ((NewTrie W).walk (ac.pfx ++ s)).isSome = true := by
      rw [walk_append, hw]
      exact h1
    rcases (walk_isSome_NewTrie W (ac.pfx ++ s)).1 h2 with h3 | h3
    · rcases hs with hs | hs
      · exact hs (List.append_eq_nil.1 h3).2
      · cases W with
        | nil => exact hs rfl
        | cons w rest =>
          exact hno ⟨w, List.mem_cons_self _ _, by rw [h3]; exact List.nil_prefix⟩
    · exact hno h3
  refine ⟨ac', ?_⟩
  rw [hadd, if_neg hne]

/-- C12 at the empty trie and the empty input: no word of `W = []` starts with
the tracked prefix followed by `""`, and `AddString("")` on the fresh cursor
returns `nil`, not `ErrNoMatches`. -/
theorem C12_failing_input :
    Reachable (NewTrie []) (NewAutoCompleter (NewTrie [])) ∧
      (¬ ∃ w ∈ ([] : List (List Rune)), (NewAutoCompleter (NewTrie [])).pfx ++ [] <+: w) ∧
      (NewAutoCompleter (NewTrie [])).AddString [] =
        some (NewAutoCompleter (NewTrie []), none) :=
  ⟨Reachable.init, by simp, rfl⟩

theorem foldl_addToTrie_filter (W : List (List Rune)) :
    ∀ t : Trie, W.foldl addToTrie t =
      (W.filter (fun w => decide (w ≠ []))).foldl addToTrie t := by
  induction W with
  | nil => intro t; rfl
  | cons w rest ih =>
    intro t
    by_cases hw : w = []
    · subst hw
      simp [addToTrie_nil, ih]
    · simp [hw, ih]

/-- C13. Inserting the empty string is a no-op: `NewTrie(W)` is the trie built
from `W` without its empty strings; the root is never marked as a word; neither
`AllWords()` nor `AllWithPrefix("")` returns the empty string; and the trie of
the empty list has no words at all. -/
theorem C13_empty_string_noop (W : List (List Rune)) :
    NewTrie W = NewTrie (W.filter (fun w => decide (w ≠ []))) ∧
      (NewTrie W).isWord = false ∧
      [] ∉ (NewTrie W).AllWords ∧ [] ∉ (NewTrie W).AllWithPrefix [] ∧
      (NewTrie []).AllWords = [] ∧ (NewTrie []).AllWithPrefix [] = [] := by
  refine ⟨foldl_addToTrie_filter W emptyNode, isWord_NewTrie W, ?_, ?_, rfl, rfl⟩
  · intro h
    exact ((mem_AllWords (WF_NewTrie W) []).1 h).1 rfl
  · intro h
    have := ((mem_AllWithPrefix (WF_NewTrie W) [] []).1 h).2
    rw [isWordAt_NewTrie] at this
    exact this.1 rfl

theorem mapSet_mapSet (m : List (Rune × Trie)) (k : Rune) (v v' : Trie) :
    mapSet (mapSet m k v) k v' = mapSet m k v' := by
  induction m with
  | nil => simp [mapSet]
  | cons x rest ih =>
    obtain ⟨a, b⟩ := x
    by_cases e : a = k
    · simp [mapSet, e]
    · simp [mapSet, e, ih]

theorem mapSet_of_mapGet {m : List (Rune × Trie)} {k : Rune} {v : Trie}
    (h : mapGet m k = some v) : mapSet m k v = m := by
  induction m with
  | nil => simp [mapGet] at h
  | cons x rest ih =>
    obtain ⟨a, b⟩ := x
    by_cases e : a = k
    · simp only [mapGet, e, if_true, Option.some.injEq] at h
      simp [mapSet, e, h]
    · simp only [mapGet, e, if_false] at h
      simp [mapSet, e, ih h]

theorem addToTrie_idem (w : List Rune) :
    ∀ t : Trie, addToTrie (addToTrie t w) w = addToTrie t w := by
  induction w with
  | nil => intro t; rfl
  | cons c rest ih =>
    intro t
    cases rest with
    | nil =>
      rw [addToTrie_single t c, addToTrie_single]
      simp [Trie.children, Trie.isWord, mapGet_mapSet, mapSet_mapSet]
    | cons d r =>
      rw [addToTrie_cons_cons t c d r, addToTrie_cons_cons]
      simp [Trie.children, Trie.isWord, mapGet_mapSet, mapSet_mapSet, ih]

theorem addToTrie_of_isWordAt (w : List Rune) :
    ∀ t : Trie, t.isWordAt w = true → addToTrie t w = t := by
  induction w with
  | nil => intro t _; rfl
  | cons c rest ih =>
    intro t h
    rw [isWordAt_cons] at h
    cases hget : mapGet t.children c with
    | none => simp [hget] at h
    | some child =>
      rw [hget] at h
      simp only at h
      obtain ⟨cs, f⟩ := t
      simp only [Trie.children] at hget
      cases rest with
      | nil =>
        rw [addToTrie_single]
        rw [isWordAt_nil] at h
        obtain ⟨ccs, cf⟩ := child
        simp only [Trie.isWord] at h
        subst h
        simp [Trie.children, Trie.isWord, hget, mapSet_of_mapGet hget]
      | cons d r =>
        rw [addToTrie_cons_cons]
        simp [Trie.children, Trie.isWord, hget, ih child h, mapSet_of_mapGet hget]

theorem NewTrie_append (W : List (List Rune)) (w : List Rune) :
    NewTrie (W ++ [w]) = addToTrie (NewTrie W) w := by
  simp [NewTrie, List.foldl_append]

/-- C14. Duplicate insertion is idempotent: inserting `w` into any trie twice
yields the same trie as inserting it once, and `NewTrie(W ++ [w])` equals
`NewTrie(W)` whenever `w` is already in `W`. -/
theorem C14_duplicate_idempotent (W : List (List Rune)) (w : List Rune) :
    (∀ t : Trie, addToTrie (addToTrie t w) w = addToTrie t w) ∧
      (w ∈ W → addToTrie (NewTrie W) w = NewTrie W ∧ NewTrie (W ++ [w]) = NewTrie W) := by
  refine ⟨addToTrie_idem w, fun hw => ?_⟩
  have h2 : addToTrie (NewTrie W) w = NewTrie W := by
    by_cases he : w = []
    · subst he
      rfl
    · exact addToTrie_of_isWordAt w _ ((isWordAt_NewTrie W w).2 ⟨he, hw⟩)
  exact ⟨h2, by rw [NewTrie_append, h2]⟩

theorem C14_duplicate_idempotent_witness :
    ['a', 'b'] ∈ smallWords ∧ NewTrie (smallWords ++ [['a', 'b']]) = NewTrie smallWords :=
  ⟨by decide, ((C14_duplicate_idempotent smallWords ['a', 'b']).2 (by decide)).2⟩

theorem isWordAt_iff_walk (t : Trie) (p : List Rune) :
    t.isWordAt p = true ↔ ∃ node, t.walk p = some node ∧ node.isWord = true := by
  unfold Trie.isWordAt
  cases t.walk p with
  | none => simp
  | some node => simp

/-- C17. Word-flag characterisation: for a non-empty path `p`, following `p` from
the root of `NewTrie(W)` reaches a node with `isWord = true` if and only if `p`
is a word of `W`; a path that is not a word of `W` ends, if it exists, in a node
with `isWord = false`; and a flag that is set stays set under any later
insertion. -/
theorem C17_word_flag (W : List (List Rune)) (p : List Rune) (hp : p ≠ []) :
    ((∃ node, (NewTrie W).walk p = some node ∧ node.isWord = true) ↔ p ∈ W) ∧
      (p ∉ W → ∀ node, (NewTrie W).walk p = some node → node.isWord = false) ∧
      (∀ (t : Trie) (w : List Rune), t.isWordAt p = true →
        (addToTrie t w).isWordAt p = true) := by
  have hiff : (∃ node, (NewTrie W).walk p = some node ∧ node.isWord = true) ↔ p ∈ W := by
    rw [← isWordAt_iff_walk, isWordAt_NewTrie]
    exact ⟨fun h => h.2, fun h => ⟨hp, h⟩⟩
  refine ⟨hiff, ?_, ?_⟩
  · intro hnot node hnode
    cases hf : node.isWord with
    | false => rfl
    | true => exact absurd (hiff.1 ⟨node, hnode, hf⟩) hnot
  · intro t w h
    exact (isWordAt_addToTrie w t p).2 (Or.inl h)

theorem C17_word_flag_witness :
    ['a', 'b'] ≠ ([] : List Rune) ∧
      ((∃ node, (NewTrie smallWords).walk ['a', 'b'] = some node ∧ node.isWord = true) ↔
        ['a', 'b'] ∈ smallWords) :=
  ⟨by decide, (C17_word_flag smallWords ['a', 'b'] (by decide)).1⟩

theorem Below_walk {t n : Trie} (hb : Trie.Below t n) :
    t.WF → ∃ p, p ≠ [] ∧ t.walk p = some n := by
  induction hb with
  | @child t x hx =>
    intro hwf
    refine ⟨[x.1], by simp, ?_⟩
    rw [walk_cons, mapGet_of_mem (WF_children hwf).1 hx]
    rfl
  | @deeper t n x hx _ ih =>
    intro hwf
    obtain ⟨p, _, hp⟩ := ih ((WF_children hwf).2 x hx)
    refine ⟨x.1 :: p, by simp, ?_⟩
    rw [walk_cons, mapGet_of_mem (WF_children hwf).1 hx]
    exact hp

theorem walk_Below {p : List Rune} :
    ∀ {t n : Trie}, p ≠ [] → t.walk p = some n → Trie.Below t n := by
  induction p with
  | nil => intro t n h _; exact absurd rfl h
  | cons c rest ih =>
    intro t n _ hw
    rw [walk_cons] at hw
    cases hget : mapGet t.children c with
    | none => simp [hget] at hw
    | some child =>
      rw [hget] at hw
      simp only at hw
      have hmem := mapGet_mem hget
      cases rest with
      | nil =>
        simp only [Trie.walk, Option.some.injEq] at hw
        subst hw
        exact Trie.Below.child hmem
      | cons d r => exact Trie.Below.deeper hmem (ih (by simp) hw)

/-- C18 (as stated) fails at the root: the root of `NewTrie(nil)` has an empty
children map and `isWord = false`. -/
theorem C18_counterexample :
    (NewTrie []).walk [] = some (NewTrie []) ∧
      (NewTrie []).children = [] ∧ (NewTrie []).isWord = false :=
  ⟨rfl, rfl, rfl⟩

theorem Below_not_dead (W : List (List Rune)) (node : Trie)
    (hnode : Trie.Below (NewTrie W) node) :
    ¬ (node.children = [] ∧ node.isWord = false) := by
  obtain ⟨p, hp, hw⟩ := Below_walk hnode (WF_NewTrie W)
  rintro ⟨hch, hflag⟩
  have hsome : ((NewTrie W).walk p).isSome = true := by simp [hw]
  rcases (walk_isSome_NewTrie W p).1 hsome with h | ⟨w, hwW, q, rfl⟩
  · exact hp h
  · cases q with
    | nil =>
      rw [List.append_nil] at hwW
      have := (isWordAt_NewTrie W p).2 ⟨hp, hwW⟩
      simp [Trie.isWordAt, hw, hflag] at this
    | cons x q' =>
      have hpre : p ++ [x] <+: p ++ x :: q' := ⟨q', by simp⟩
      have h2 := (walk_isSome_NewTrie W (p ++ [x])).2 (Or.inr ⟨_, hwW, hpre⟩)
      rw [walk_append, hw] at h2
      simp [walk_cons, hch, mapGet] at h2

theorem root_children_nil_iff (W : List (List Rune)) :
    (NewTrie W).children = [] ↔ ∀ w ∈ W, w = [] := by
  constructor
  · intro hch w hw
    cases w with
    | nil => rfl
    | cons c rest =>
      have hpre : [c] <+: c :: rest := ⟨rest, rfl⟩
      have h2 := (walk_isSome_NewTrie W [c]).2 (Or.inr ⟨_, hw, hpre⟩)
      simp [walk_cons, hch, mapGet] at h2
  · intro hall
    have hf : W.filter (fun w => decide (w ≠ [])) = [] := by
      rw [List.filter_eq_nil_iff]
      intro w hw
      simp [hall w hw]
    have : NewTrie W = emptyNode := by
      unfold NewTrie
      rw [foldl_addToTrie_filter, hf]
      rfl
    rw [this]
    rfl

/-- C18 (amended). No dead leaves: for every word list `W`, no node of
`NewTrie(W)` other than the root has both an empty children map and
`isWord = false`, and the root has both exactly when `W` contains no non-empty
word; so when `W` contains a non-empty word, no node of `NewTrie(W)`, the root
included, is such a node. -/
theorem C18_no_dead_leaves (W : List (List Rune)) :
    (∀ node, Trie.Below (NewTrie W) node →
        ¬ (node.children = [] ∧ node.isWord = false)) ∧
      (((NewTrie W).children = [] ∧ (NewTrie W).isWord = false) ↔ ∀ w ∈ W, w = []) ∧
      ((∃ w ∈ W, w ≠ []) → ∀ node, node = NewTrie W ∨ Trie.Below (NewTrie W) node →
        ¬ (node.children = [] ∧ node.isWord = false)) := by
  have hroot : ((NewTrie W).children = [] ∧ (NewTrie W).isWord = false) ↔
      ∀ w ∈ W, w = [] := by
    rw [← root_children_nil_iff W]
    exact ⟨fun h => h.1, fun h => ⟨h, isWord_NewTrie W⟩⟩
  refine ⟨Below_not_dead W, hroot, ?_⟩
  rintro ⟨w, hw, hne⟩ node hnode hdead
  rcases hnode with rfl | hb
  · exact hne (hroot.1 hdead w hw)
  · exact Below_not_dead W node hb hdead

theorem C18_no_dead_leaves_witness :
    (∃ w ∈ smallWords, w ≠ []) ∧
      ¬ ((NewTrie smallWords).children = [] ∧ (NewTrie smallWords).isWord = false) ∧
      ∃ node, Trie.Below (NewTrie smallWords) node ∧
        ¬ (node.children = [] ∧ node.isWord = false) :=
  ⟨by decide,
    (C18_no_dead_leaves smallWords).2.2 (by decide) _ (Or.inl rfl),
    _, walk_Below (by decide) (rfl : (NewTrie smallWords).walk ['a'] = some _),
    (C18_no_dead_leaves smallWords).1 _
      (walk_Below (by decide) (rfl : (NewTrie smallWords).walk ['a'] = some _))⟩

/-! ## The cursor invariant in index form -/

theorem CursorInv.shape {t : Trie} {ac : AutoCompleter} (h : CursorInv t ac) :
    ac.stack.length = ac.pfx.length + 1 ∧ ac.stack.head? = some t ∧
      ∀ (i : Nat) (r : Rune), ac.pfx[i]? = some r →
        ∃ parent child, ac.stack[i]? = some parent ∧ ac.stack[i + 1]? = some child ∧
          mapGet parent.children r = some child := by
  induction h with
  | root => simp
  | @push p s top next r _ hget ih =>
    obtain ⟨hlen, hhead, hidx⟩ := ih
    simp only at hlen hhead hidx
    have hls : s.length = p.length := by simpa using hlen
    refine ⟨by simp [hls], ?_, ?_⟩
    · show (s ++ [top] ++ [next]).head? = some t
      cases s with
      | nil => simpa using hhead
      | cons a s' => simpa using hhead
    · intro i r' hi
      show ∃ parent child, (s ++ [top] ++ [next])[i]? = some parent ∧
        (s ++ [top] ++ [next])[i + 1]? = some child ∧ mapGet parent.children r' = some child
      by_cases hlt : i < p.length
      · have hi' : p[i]? = some r' := by
          rwa [List.getElem?_append_left hlt] at hi
        obtain ⟨parent, child, h1, h2, h3⟩ := hidx i r' hi'
        refine ⟨parent, child, ?_, ?_, h3⟩
        · rw [List.getElem?_append_left (by simp; omega)]
          exact h1
        · rw [List.getElem?_append_left (by simp; omega)]
          exact h2
      · have hlen' : i < (p ++ [r]).length := by
          rcases List.getElem?_eq_some.1 hi with ⟨hb, _⟩
          exact hb
        have hieq : i = p.length := by
          simp at hlen'
          omega
        subst hieq
        have hr : r' = r := by simpa using hi.symm
        subst hr
        refine ⟨top, next, ?_, ?_, hget⟩
        · rw [List.getElem?_append_left (by simp; omega),
            List.getElem?_append_right (by omega)]
          simp [hls]
        · rw [List.getElem?_append_right (by simp; omega)]
          simp [hls]

theorem CursorInv.delete_isSome {t : Trie} {ac : AutoCompleter} (h : CursorInv t ac) :
    ∃ ac', ac.Delete = some ac' ∧ ac'.pfx = ac.pfx.dropLast := by
  cases h with
  | root => exact ⟨_, rfl, rfl⟩
  | @push p s top next r _ _ =>
    refine ⟨{ pfx := p, stack := s ++ [top] }, ?_, by simp⟩
    simp [AutoCompleter.Delete, List.dropLast_concat]

/-- C16. Cursor invariant: in every state reachable from `NewAutoCompleter(t)` by
`Add`, `AddString` and `Delete` calls (failing ones included),
`len(stack) == len(prefix) + 1`, `stack[0]` is the root, and `stack[i+1]` is the
child of `stack[i]` under `prefix[i]`; the stack is never empty, so `Add`,
`AllMatches` and `Delete` do not panic. -/
theorem C16_cursor_invariant (t : Trie) (ac : AutoCompleter) (h : Reachable t ac) :
    ac.stack.length = ac.pfx.length + 1 ∧ ac.stack.head? = some t ∧
      (∀ (i : Nat) (r : Rune), ac.pfx[i]? = some r →
        ∃ parent child, ac.stack[i]? = some parent ∧ ac.stack[i + 1]? = some child ∧
          mapGet parent.children r = some child) ∧
      ac.stack ≠ [] ∧ (∀ r, (ac.Add r).isSome = true) ∧
      ac.AllMatches.isSome = true ∧ ac.Delete.isSome = true := by
  have hinv := h.inv
  obtain ⟨hlen, hhead, hidx⟩ := hinv.shape
  obtain ⟨top, htop, _⟩ := hinv.getLast
  obtain ⟨ac', hdel, _⟩ := hinv.delete_isSome
  refine ⟨hlen, hhead, hidx, ?_, ?_, ?_, ?_⟩
  · intro e
    rw [e] at hlen
    simp at hlen
  · intro r
    cases hget : mapGet top.children r with
    | none => rw [Add_absent htop hget]; rfl
    | some next => rw [Add_present htop hget]; rfl
  · rw [AllMatches_eq htop]; rfl
  · rw [hdel]; rfl

theorem C16_cursor_invariant_witness :
    smallCursor.stack.length = smallCursor.pfx.length + 1 ∧
      smallCursor.stack.head? = some (NewTrie smallWords) :=
  ⟨(C16_cursor_invariant (NewTrie smallWords) smallCursor smallCursor_reachable).1,
    (C16_cursor_invariant (NewTrie smallWords) smallCursor smallCursor_reachable).2.1⟩

/-! ## The scenario of `TestAutoCompleter` -/

/-- C15. Concrete scenario: on the trie of the ten fixture words, a fresh cursor
accepts `a` and `b`, after which `AllMatches()` is exactly
`{abc, abcde, abb, abbc, abba, abccd, abcdeef}`; `Add('d')` then returns
`ErrNoMatches` and leaves the cursor, hence `AllMatches()`, unchanged; `Add('b')`
then succeeds and `AllMatches()` is exactly `{abb, abbc, abba}`. -/
theorem C15_scenario :
    ∃ ac1 ac2 ac3 m2 m3,
      (NewAutoCompleter (NewTrie fixtureWords)).Add 'a' = some (ac1, none) ∧
      ac1.Add 'b' = some (ac2, none) ∧
      ac2.AllMatches = some m2 ∧
      m2.Perm (["abc", "abcde", "abb", "abbc", "abba", "abccd", "abcdeef"].map String.toList) ∧
      ac2.Add 'd' = some (ac2, some GoError.ErrNoMatches) ∧
      ac2.Add 'b' = some (ac3, none) ∧
      ac3.AllMatches = some m3 ∧
      m3.Perm (["abb", "abbc", "abba"].map String.toList) :=
  ⟨_, _, _, _, _, rfl, rfl, rfl, by decide, rfl, rfl, rfl, by decide⟩

/-! ## Order of construction -/

theorem NewTrie_perm_paths {W W' : List (List Rune)} (h : W.Perm W') (p : List Rune) :
    ((NewTrie W).walk p).isSome = ((NewTrie W').walk p).isSome ∧
      (NewTrie W).isWordAt p = (NewTrie W').isWordAt p := by
  constructor
  · rw [Bool.eq_iff_iff, walk_isSome_NewTrie, walk_isSome_NewTrie]
    simp only [h.mem_iff]
  · rw [Bool.eq_iff_iff, isWordAt_NewTrie, isWordAt_NewTrie, h.mem_iff]

theorem AllWithPrefix_perm_of_flags {t t' : Trie} (hwf : t.WF) (hwf' : t'.WF)
    (hflags : ∀ p, t.isWordAt p = t'.isWordAt p) (p : List Rune) :
    (t.AllWithPrefix p).Perm (t'.AllWithPrefix p) := by
  rw [List.perm_ext_iff_of_nodup (nodup_AllWithPrefix hwf p) (nodup_AllWithPrefix hwf' p)]
  intro s
  rw [mem_AllWithPrefix hwf, mem_AllWithPrefix hwf', hflags]

theorem AllWords_perm_of_flags {t t' : Trie} (hwf : t.WF) (hwf' : t'.WF)
    (hflags : ∀ p, t.isWordAt p = t'.isWordAt p) : t.AllWords.Perm t'.AllWords := by
  rw [List.perm_ext_iff_of_nodup (nodup_AllWords hwf) (nodup_AllWords hwf')]
  intro s
  rw [mem_AllWords hwf, mem_AllWords hwf', hflags]

theorem Add_sim {t t' : Trie} (hpaths : ∀ p, (t.walk p).isSome = (t'.walk p).isSome)
    {ac ac' : AutoCompleter} (hi : CursorInv t ac) (hi' : CursorInv t' ac')
    (hp : ac.pfx = ac'.pfx) (r : Rune) :
    ∃ ac1 ac1' e, ac.Add r = some (ac1, e) ∧ ac'.Add r = some (ac1', e) ∧
      CursorInv t ac1 ∧ CursorInv t' ac1' ∧ ac1.pfx = ac1'.pfx := by
  obtain ⟨top, htop, hw⟩ := hi.getLast
  obtain ⟨top', htop', hw'⟩ := hi'.getLast
  have hsame := hpaths (ac.pfx ++ [r])
  rw [walk_append, hw, hp, walk_append, hw'] at hsame
  simp only [walk_cons] at hsame
  cases hget : mapGet top.children r with
  | none =>
    cases hget' : mapGet top'.children r with
    | none =>
      exact ⟨ac, ac', _, Add_absent htop hget, Add_absent htop' hget', hi, hi', hp⟩
    | some next' => simp [hget, hget', Trie.walk] at hsame
  | some next =>
    cases hget' : mapGet top'.children r with
    | none => simp [hget, hget', Trie.walk] at hsame
    | some next' =>
      have h1 := Add_present htop hget
      have h1' := Add_present htop' hget'
      exact ⟨_, _, _, h1, h1', hi.add h1, hi'.add h1', by simp [hp]⟩

theorem AddString_sim {t t' : Trie} (hpaths : ∀ p, (t.walk p).isSome = (t'.walk p).isSome)
    (s : List Rune) :
    ∀ {ac ac' : AutoCompleter}, CursorInv t ac → CursorInv t' ac' → ac.pfx = ac'.pfx →
      ∃ ac1 ac1' e, ac.AddString s = some (ac1, e) ∧ ac'.AddString s = some (ac1', e) ∧
        CursorInv t ac1 ∧ CursorInv t' ac1' ∧ ac1.pfx = ac1'.pfx := by
  induction s with
  | nil =>
    intro ac ac' hi hi' hp
    exact ⟨ac, ac', none, rfl, rfl, hi, hi', hp⟩
  | cons r rest ih =>
    intro ac ac' hi hi' hp
    obtain ⟨ac1, ac1', e, h1, h1', hi1, hi1', hp1⟩ := Add_sim hpaths hi hi' hp r
    cases e with
    | some err =>
      refine ⟨ac1, ac1', some err, ?_, ?_, hi1, hi1', hp1⟩
      · simp [AutoCompleter.AddString, h1]
      · simp [AutoCompleter.AddString, h1']
    | none =>
      obtain ⟨ac2, ac2', e2, h2, h2', hi2, hi2', hp2⟩ := ih hi1 hi1' hp1
      refine ⟨ac2, ac2', e2, ?_, ?_, hi2, hi2', hp2⟩
      · simp [AutoCompleter.AddString, h1, h2]
      · simp [AutoCompleter.AddString, h1', h2']

theorem stepOp_sim {t t' : Trie} (hpaths : ∀ p, (t.walk p).isSome = (t'.walk p).isSome)
    {ac ac' : AutoCompleter} (hi : CursorInv t ac) (hi' : CursorInv t' ac')
    (hp : ac.pfx = ac'.pfx) (op : CursorOp) :
    ∃ ac1 ac1' e, stepOp ac op = some (ac1, e) ∧ stepOp ac' op = some (ac1', e) ∧
      CursorInv t ac1 ∧ CursorInv t' ac1' ∧ ac1.pfx = ac1'.pfx := by
  cases op with
  | add r => exact Add_sim hpaths hi hi' hp r
  | addString s => exact AddString_sim hpaths s hi hi' hp
  | delete =>
    obtain ⟨ac1, h1, hp1⟩ := hi.delete_isSome
    obtain ⟨ac1', h1', hp1'⟩ := hi'.delete_isSome
    refine ⟨ac1, ac1', none, ?_, ?_, hi.delete h1, hi'.delete h1', by rw [hp1, hp1', hp]⟩
    · simp [stepOp, h1]
    · simp [stepOp, h1']

theorem runOps_sim {t t' : Trie} (hpaths : ∀ p, (t.walk p).isSome = (t'.walk p).isSome)
    (ops : List CursorOp) :
    ∀ {ac ac' : AutoCompleter}, CursorInv t ac → CursorInv t' ac' → ac.pfx = ac'.pfx →
      ∃ ac1 ac1' es, runOps ops ac = some (ac1, es) ∧ runOps ops ac' = some (ac1', es) ∧
        CursorInv t ac1 ∧ CursorInv t' ac1' ∧ ac1.pfx = ac1'.pfx := by
  induction ops with
  | nil =>
    intro ac ac' hi hi' hp
    exact ⟨ac, ac', [], rfl, rfl, hi, hi', hp⟩
  | cons op rest ih =>
    intro ac ac' hi hi' hp
    obtain ⟨ac1, ac1', e, h1, h1', hi1, hi1', hp1⟩ := stepOp_sim hpaths hi hi' hp op
    obtain ⟨ac2, ac2', es, h2, h2', hi2, hi2', hp2⟩ := ih hi1 hi1' hp1
    refine ⟨ac2, ac2', e :: es, ?_, ?_, hi2, hi2', hp2⟩
    · simp [runOps, h1, h2]
    · simp [runOps, h1', h2']

theorem AllMatches_eq_AllWithPrefix {t : Trie} {ac : AutoCompleter} (hi : CursorInv t ac) :
    ac.AllMatches = some (t.AllWithPrefix ac.pfx) := by
  obtain ⟨top, htop, hw⟩ := hi.getLast
  rw [AllMatches_eq htop, AllWithPrefix_eq, hw]

/-- C19. Construction is order-independent: for a permutation `W'` of `W`, the
tries `NewTrie(W)` and `NewTrie(W')` have the same paths and the same word flag
at the end of every path, so `AllWords()` and `AllWithPrefix(p)` return the same
strings on both, and any sequence of cursor calls returns the same errors, tracks
the same prefix and has the same `AllMatches()` on both. -/
theorem C19_order_independent (W W' : List (List Rune)) (h : W.Perm W') :
    (∀ p, ((NewTrie W).walk p).isSome = ((NewTrie W').walk p).isSome ∧
        (NewTrie W).isWordAt p = (NewTrie W').isWordAt p) ∧
      (NewTrie W).AllWords.Perm (NewTrie W').AllWords ∧
      (∀ p, ((NewTrie W).AllWithPrefix p).Perm ((NewTrie W').AllWithPrefix p)) ∧
      (∀ ops : List CursorOp, ∃ ac ac' errs m m',
        runOps ops (NewAutoCompleter (NewTrie W)) = some (ac, errs) ∧
        runOps ops (NewAutoCompleter (NewTrie W')) = some (ac', errs) ∧
        ac.pfx = ac'.pfx ∧ ac.AllMatches = some m ∧ ac'.AllMatches = some m' ∧
        m.Perm m') := by
  have hflags : ∀ p, (NewTrie W).isWordAt p = (NewTrie W').isWordAt p :=
    fun p => (NewTrie_perm_paths h p).2
  have hpaths : ∀ p, ((NewTrie W).walk p).isSome = ((NewTrie W').walk p).isSome :=
    fun p => (NewTrie_perm_paths h p).1
  have hpre := AllWithPrefix_perm_of_flags (WF_NewTrie W) (WF_NewTrie W') hflags
  refine ⟨NewTrie_perm_paths h,
    AllWords_perm_of_flags (WF_NewTrie W) (WF_NewTrie W') hflags, hpre, ?_⟩
  intro ops
  obtain ⟨ac, ac', es, h1, h1', hi, hi', hp⟩ :=
    runOps_sim hpaths ops (@CursorInv.root (NewTrie W)) (@CursorInv.root (NewTrie W')) rfl
  refine ⟨ac, ac', es, _, _, h1, h1', hp, AllMatches_eq_AllWithPrefix hi,
    AllMatches_eq_AllWithPrefix hi', ?_⟩
  rw [← hp]
  exact hpre ac.pfx

theorem C19_order_independent_witness :
    smallWords.Perm smallWords.reverse ∧
      (NewTrie smallWords).AllWords.Perm (NewTrie smallWords.reverse).AllWords :=
  ⟨(List.reverse_perm smallWords).symm,
    (C19_order_independent smallWords smallWords.reverse
      (List.reverse_perm smallWords).symm).2.1⟩
